import Mathlib

/-!
Verification of the poker-basic repository core (player betting state,
the betting-round state machine, the AI decision policy and the showdown
evaluator) against its natural-language specification.

Shallow embedding conventions:
* Python integers (chips, bets, pot) are modelled as `Int`.
* Card values are the rank indices `0..12` produced by `Card.get_value`,
  modelled as `Nat` (list index into `Card.RANKS`).
* Python floats in the AI heuristic are modelled as exact rationals `ℚ`;
  Python `int(x)` (truncation toward zero) is `pytrunc`.
* Players are identified by their index in the table's player list;
  Python object identity (`player == last_raiser`, the `players_acted`
  set) becomes index equality / index membership.
* Fallible code paths (Python exceptions, e.g. `max()` of an empty
  sequence in `determine_winner`) return `Option`, with `none` for the
  raised exception.
-/

namespace PokerBasic

/-- State of `Player` (src/player.py): chip stack, hand (card values in
draw order), per-round contribution and the fold / all-in flags.  The
`name` field takes no part in any claim and is omitted. -/
structure Player where
  chips : Int
  hand : List Nat
  current_bet : Int
  has_folded : Bool
  is_all_in : Bool
deriving Repr, DecidableEq

/-- Embedding of `Player.place_bet` (src/player.py lines 38-50).  Returns
the committed amount (the Python return value) together with the updated
player. -/
def place_bet (p : Player) (amount : Int) : Int × Player :=
  if amount ≥ p.chips then
    (p.chips, { p with is_all_in := true, chips := 0,
                       current_bet := p.current_bet + p.chips })
  else
    (amount, { p with chips := p.chips - amount,
                      current_bet := p.current_bet + amount })

/-- Embedding of `Player.fold` (src/player.py lines 52-54). -/
def fold (p : Player) : Player := { p with has_folded := true }

/-- A decision returned by `make_decision`: the `(action, amount)` pair of
the Python code as a tagged value. -/
inductive Decision where
  | fold
  | call (amount : Int)
  | raise (amount : Int)
deriving Repr, DecidableEq

/-- Python `int(x)` applied to a (here: exact rational) value: truncation
toward zero.  Rationals are stored reduced with a positive denominator, so
`num / den` in `Int` (T-division) is exactly that truncation. -/
def pytrunc (q : ℚ) : Int := q.num / (q.den : Int)

/-- Embedding of `AIPlayer.__init__`'s aggression clamp
(src/player.py line 129): `max(0.0, min(1.0, aggression))`. -/
def clampAggression (a : ℚ) : ℚ := max 0 (min 1 a)

/-- Embedding of `AIPlayer._evaluate_hand_strength`
(src/player.py lines 167-182).  `len(Card.RANKS) = 13`; the card values
are sorted in descending order exactly as `values.sort(reverse=True)`
does, and only the two largest entries are inspected. -/
def evaluate_hand_strength (hand : List Nat) : ℚ :=
  if hand.length < 2 then 1/2
  else
    match hand.insertionSort (· ≥ ·) with
    | v0 :: v1 :: _ =>
        if v0 = v1 then 7/10 + ((v0 : ℚ) / 13) * (3/10)
        else 3/10 + ((v0 : ℚ) / 13) * (2/5)
    | _ => 1/2

/-- The `call_amount` computation shared by both decision policies
(src/player.py lines 88-92 and 133-136): the shortfall against the table
bet, or zero when the player has already matched it. -/
def callAmount (current_bet player_bet : Int) : Int :=
  if current_bet > player_bet then current_bet - player_bet else 0

/-- Embedding of `AIPlayer.make_decision` (src/player.py lines 131-165).
`aggression` is the (already clamped) aggression coefficient. -/
def ai_make_decision (aggression : ℚ) (p : Player)
    (current_bet minimum_bet : Int) : Decision :=
  let call_amount : Int := callAmount current_bet p.current_bet
  let hand_strength := evaluate_hand_strength p.hand
  let fold_threshold : ℚ :=
    1/5 + ((call_amount : ℚ) / ((max p.chips 1 : Int) : ℚ)) * (3/10)
  let raise_threshold : ℚ := 3/5 + (2/5 - aggression * (2/5))
  if hand_strength < fold_threshold ∧ call_amount > 0 then
    .fold
  else if raise_threshold < hand_strength ∧ call_amount + minimum_bet < p.chips then
    let max_raise := p.chips - call_amount
    let raise_multiplier := aggression * hand_strength
    let raise_amount :=
      min (pytrunc ((minimum_bet : ℚ) * (1 + raise_multiplier * 3))) max_raise
    .raise (call_amount + max raise_amount minimum_bet)
  else
    .call call_amount

/-- A decision policy: what `player.make_decision(current_bet, minimum_bet)`
returns for the player at a given index with a given state.  The Python
method sees the player's own attributes plus the two arguments; quantifying
over all such functions covers every fold/call/raise sequence a policy can
produce. -/
abbrev Policy := Nat → Player → Int → Int → Decision

/-- The local state of `PokerGame.betting_round` (src/poker_game.py lines
76-159) together with the `PokerGame` fields it reads and writes:
the player list, the pot, the table current bet, and the loop-local
`last_raiser` / `players_acted` (by player index). -/
structure RoundSt where
  players : List Player
  pot : Int
  current_bet : Int
  last_raiser : Option Nat
  acted : List Nat
deriving Repr, DecidableEq

/-- Membership-preserving insertion for the `players_acted` set. -/
def insertActed (i : Nat) (l : List Nat) : List Nat :=
  if i ∈ l then l else i :: l

/-- Number of players that have not folded
(`[p for p in self.players if not p.has_folded]`). -/
def countNonFolded (ps : List Player) : Nat :=
  (ps.filter (fun p => !p.has_folded)).length

/-- Number of players that are neither folded nor all-in
(`active_players` / `active_betting_players` in the source). -/
def countActiveBetting (ps : List Player) : Nat :=
  (ps.filter (fun p => !p.has_folded && !p.is_all_in)).length

/-- The `needs_to_act` test of src/poker_game.py lines 102-106: the player
has not matched the table bet, or is the last raiser, or nobody has bet yet
and the player has not acted. -/
def needsToAct (st : RoundSt) (i : Nat) (p : Player) : Bool :=
  decide (p.current_bet < st.current_bet) || (st.last_raiser == some i) ||
    ((st.current_bet == 0) && !(st.acted.contains i))

/-- Scan `self.players` with a running index and test whether every player
other than index `i` has matched the table bet or is folded or all-in
(the `all(...)` of src/poker_game.py lines 110-113). -/
def othersMatchedFrom (cb : Int) (i : Nat) : Nat → List Player → Bool
  | _, [] => true
  | j, p :: ps =>
      ((j == i) || (p.current_bet == cb) || p.has_folded || p.is_all_in) &&
      othersMatchedFrom cb i (j+1) ps

/-- The "special check for last raiser" of src/poker_game.py lines 110-114:
skip the last raiser when everyone else has already responded. -/
def lastRaiserSkip (st : RoundSt) (i : Nat) : Bool :=
  (st.last_raiser == some i) && othersMatchedFrom st.current_bet i 0 st.players

/-- Processing of one decision (src/poker_game.py lines 117-141): the player
is recorded in `players_acted`, then a fold marks the player folded, a call
with positive amount commits chips via `place_bet` into the pot, a check
changes nothing, and a raise commits chips, moves the table bet to the
raiser's total contribution, records the raiser and resets the acted set. -/
def applyDecision (st : RoundSt) (i : Nat) (p : Player) (d : Decision) :
    RoundSt :=
  let st := { st with acted := insertActed i st.acted }
  match d with
  | .fold => { st with players := st.players.set i (fold p) }
  | .call a =>
      if 0 < a then
        let r := place_bet p a
        { st with players := st.players.set i r.2, pot := st.pot + r.1 }
      else st
  | .raise a =>
      let r := place_bet p a
      { st with players := st.players.set i r.2, pot := st.pot + r.1,
                current_bet := r.2.current_bet, last_raiser := some i,
                acted := [i] }

/-- Result of the `for player in self.players` sweep: either the `return`
on fold-out (src/poker_game.py lines 143-146) fired, or the sweep ran to
the end carrying the `round_had_action` flag. -/
inductive SweepResult where
  | exited (st : RoundSt)
  | done (st : RoundSt) (had : Bool)
deriving Repr, DecidableEq

/-- One `for player in self.players` sweep of `betting_round`
(src/poker_game.py lines 94-146), iterating over the listed player
indices.  Folded or all-in players are skipped (`continue`), as is the
last raiser when everyone else has responded; otherwise the player acts
if `needs_to_act`, and after the (possible) action the fold-out check
`len(active_players) <= 1` runs and can return early. -/
def sweepGo (pol : Policy) (minb : Int) :
    List Nat → RoundSt → Bool → SweepResult
  | [], st, had => .done st had
  | i :: rest, st, had =>
    match st.players.get? i with
    | none => sweepGo pol minb rest st had
    | some p =>
      if p.has_folded || p.is_all_in then sweepGo pol minb rest st had
      else if needsToAct st i p then
        if lastRaiserSkip st i then sweepGo pol minb rest st had
        else
          let st' := applyDecision st i p (pol i p st.current_bet minb)
          if countNonFolded st'.players ≤ 1 then .exited st'
          else sweepGo pol minb rest st' true
      else
        if countNonFolded st.players ≤ 1 then .exited st
        else sweepGo pol minb rest st had

/-- The round-completion test evaluated after each sweep
(src/poker_game.py lines 148-159): complete when at most one player can
still bet, or when no action occurred, or when every player has matched
the table bet or is folded or all-in. -/
def betting_complete_check (players : List Player) (cb : Int) (had : Bool) :
    Bool :=
  if countActiveBetting players ≤ 1 then true
  else if !had then true
  else players.all (fun p => (p.current_bet == cb) || p.has_folded || p.is_all_in)

/-- The `while not betting_complete` loop of `betting_round`, with explicit
fuel; `none` means the loop was still running after `fuel` sweeps. -/
def betting_loop (pol : Policy) (minb : Int) : Nat → RoundSt → Option RoundSt
  | 0, _ => none
  | fuel+1, st =>
    match sweepGo pol minb (List.range st.players.length) st false with
    | .exited st' => some st'
    | .done st' had =>
      if betting_complete_check st'.players st'.current_bet had then some st'
      else betting_loop pol minb fuel st'

/-- Embedding of `PokerGame.betting_round` (src/poker_game.py lines
76-159): the early return when at most one player can bet, then the sweep
loop with `last_raiser = None` and an empty acted set. -/
def betting_round (pol : Policy) (minb : Int) (fuel : Nat)
    (players : List Player) (pot cb : Int) : Option RoundSt :=
  let st : RoundSt := { players := players, pot := pot, current_bet := cb,
                        last_raiser := none, acted := [] }
  if countActiveBetting players ≤ 1 then some st
  else betting_loop pol minb fuel st

/-- Python `max(card.get_value() for card in player.hand)`: `some` of the
maximum card value, or `none` for the `ValueError` on an empty hand. -/
def maxHand : List Nat → Option Nat
  | [] => none
  | v :: vs =>
    match maxHand vs with
    | none => some v
    | some m => some (max v m)

/-- Index of `active_players[0]` when `determine_winner` awards the pot to
the single remaining non-folded player: the first non-folded index. -/
def firstNonFoldedIdx : List Player → Option Nat
  | [] => none
  | p :: ps =>
      if p.has_folded then (firstNonFoldedIdx ps).map (· + 1)
      else some 0

/-- The running `best_value` of the showdown loop: `-1` before any player
has been examined, and the best player's maximum card value after. -/
def bestValue : Option (Nat × Nat) → Int
  | none => -1
  | some b => (b.2 : Int)

/-- The showdown loop of `determine_winner` (src/poker_game.py lines
172-181), iterating over the non-folded players in seating order while
tracking `best_player` (their index) and `best_value` (initially `-1`).
The first argument counts the remaining iterations (the loop itself stops
at the end of the list; any count covering the list length is exact).
The outer `Option` is `none` exactly when `max()` raises on an empty
hand; otherwise it returns the final `(best_player, best_value)`. -/
def showdownGo (ps : List Player) :
    Nat → Nat → Option (Nat × Nat) → Option (Option (Nat × Nat))
  | 0, _, best => some best
  | k+1, i, best =>
    match ps.get? i with
    | none => some best
    | some p =>
      if p.has_folded then showdownGo ps k (i+1) best
      else
        match maxHand p.hand with
        | none => none
        | some v =>
          showdownGo ps k (i+1)
            (if bestValue best < (v : Int) then some (i, v) else best)

/-- Embedding of `PokerGame.determine_winner` (src/poker_game.py lines
161-185): with exactly one non-folded player, that player receives the
pot; otherwise the showdown loop selects the winner.  `none` models the
uncaught Python exceptions (the `ValueError` from `max()` on an empty
hand, and the `AttributeError` from `best_player = None` when no
non-folded player exists). -/
def determine_winner (ps : List Player) (pot : Int) : Option (List Player) :=
  if countNonFolded ps = 1 then
    match firstNonFoldedIdx ps with
    | some i =>
      match ps.get? i with
      | some p => some (ps.set i { p with chips := p.chips + pot })
      | none => none
    | none => none
  else
    match showdownGo ps ps.length 0 none with
    | some (some b) =>
      match ps.get? b.1 with
      | some p => some (ps.set b.1 { p with chips := p.chips + pot })
      | none => none
    | _ => none

/-- CLAIM C1: `place_bet(amount)` on a player with non-negative chips and a
non-negative amount: if `amount ≥ chips` it sets the all-in flag, zeroes
the chips and returns the prior chip count; otherwise it deducts `amount`
and returns it unchanged; in both cases the returned value is added to
`current_bet`. -/
theorem place_bet_spec (p : Player) (amount : Int)
    (hc : 0 ≤ p.chips) (ha : 0 ≤ amount) :
    (amount ≥ p.chips →
      place_bet p amount =
        (p.chips, { p with is_all_in := true, chips := 0,
                           current_bet := p.current_bet + p.chips })) ∧
    (amount < p.chips →
      place_bet p amount =
        (amount, { p with chips := p.chips - amount,
                          current_bet := p.current_bet + amount })) := by
  constructor
  · intro h
    simp [place_bet, h]
  · intro h
    simp [place_bet, not_le.mpr h]

/-- Witness for C1 at concrete inputs: an all-in bet (amount 7 against 5
chips) and a normal bet (amount 3 against 5 chips). -/
theorem place_bet_spec_witness :
    (0 ≤ (5 : Int)) ∧ (0 ≤ (7 : Int)) ∧
    (place_bet { chips := 5, hand := [], current_bet := 2,
                 has_folded := false, is_all_in := false } 7 =
      (5, { chips := 0, hand := [], current_bet := 7,
            has_folded := false, is_all_in := true })) ∧
    (place_bet { chips := 5, hand := [], current_bet := 2,
                 has_folded := false, is_all_in := false } 3 =
      (3, { chips := 2, hand := [], current_bet := 5,
            has_folded := false, is_all_in := false })) := by
  refine ⟨by decide, by decide, ?_, ?_⟩
  · have h := (place_bet_spec
      { chips := 5, hand := [], current_bet := 2,
        has_folded := false, is_all_in := false } 7
      (by decide) (by decide)).1 (by decide)
    simpa using h
  · have h := (place_bet_spec
      { chips := 5, hand := [], current_bet := 2,
        has_folded := false, is_all_in := false } 3
      (by decide) (by decide)).2 (by decide)
    simpa using h

/-- On a list `maxHand` fails exactly when the list is empty. -/
theorem maxHand_eq_none : ∀ {l : List Nat}, maxHand l = none ↔ l = [] := by
  intro l
  cases l with
  | nil => simp [maxHand]
  | cons v vs =>
    rw [maxHand]
    cases maxHand vs <;> simp

/-- The value reported by `maxHand` is a member of the list. -/
theorem maxHand_mem : ∀ {l : List Nat} {t : Nat}, maxHand l = some t → t ∈ l := by
  intro l
  induction l with
  | nil => intro t h; simp [maxHand] at h
  | cons v vs ih =>
    intro t h
    rw [maxHand] at h
    cases hm : maxHand vs with
    | none =>
      rw [hm] at h
      simp at h
      rw [← h]
      exact List.mem_cons_self v vs
    | some m =>
      rw [hm] at h
      simp at h
      rcases max_choice v m with hc | hc
      · rw [← h, hc]; exact List.mem_cons_self v vs
      · rw [← h, hc]; exact List.mem_cons_of_mem v (ih hm)

/-- Every member of the list is bounded by the value of `maxHand`. -/
theorem le_maxHand : ∀ {l : List Nat} {t : Nat}, maxHand l = some t →
    ∀ x ∈ l, x ≤ t := by
  intro l
  induction l with
  | nil => intro t h; simp [maxHand] at h
  | cons v vs ih =>
    intro t h x hx
    rw [maxHand] at h
    cases hm : maxHand vs with
    | none =>
      rw [hm] at h
      simp at h
      have hvs : vs = [] := maxHand_eq_none.mp hm
      subst hvs
      simp at hx
      omega
    | some m =>
      rw [hm] at h
      simp at h
      rcases List.mem_cons.mp hx with hx | hx
      · omega
      · have := ih hm x hx
        omega

/-- On a non-empty list `maxHand` succeeds. -/
theorem maxHand_isSome : ∀ {l : List Nat}, l ≠ [] → ∃ t, maxHand l = some t := by
  intro l h
  cases l with
  | nil => exact absurd rfl h
  | cons v vs =>
    simp only [maxHand]
    cases maxHand vs <;> simp

/-- CLAIM C8: the hand-strength heuristic returns exactly `1/2` for hands
with fewer than two cards; for hands of two or more cards it returns
`0.7 + (top/13)*0.3` when the two highest card values are equal (the top
value occurs at least twice) and `0.3 + (top/13)*0.4` otherwise, where
`top` is the highest card value; in particular a pair of Aces (values
`[12, 12]`) yields `0.7 + (12/13)*0.3` and Ace-King (`[12, 11]`) yields
`0.3 + (12/13)*0.4`. -/
theorem hand_strength_spec (hand : List Nat) :
    (hand.length < 2 → evaluate_hand_strength hand = 1/2) ∧
    (2 ≤ hand.length → ∀ t, maxHand hand = some t →
      (2 ≤ hand.count t →
        evaluate_hand_strength hand = 7/10 + ((t : ℚ) / 13) * (3/10)) ∧
      (hand.count t < 2 →
        evaluate_hand_strength hand = 3/10 + ((t : ℚ) / 13) * (2/5))) ∧
    evaluate_hand_strength [12, 12] = 7/10 + ((12 : ℚ) / 13) * (3/10) ∧
    evaluate_hand_strength [12, 11] = 3/10 + ((12 : ℚ) / 13) * (2/5) ∧
    evaluate_hand_strength [] = 1/2 ∧
    evaluate_hand_strength [7] = 1/2 := by
  refine ⟨?_, ?_, by norm_num [evaluate_hand_strength, List.insertionSort,
      List.orderedInsert], by norm_num [evaluate_hand_strength,
      List.insertionSort, List.orderedInsert], by norm_num
      [evaluate_hand_strength], by norm_num [evaluate_hand_strength]⟩
  · intro h
    simp [evaluate_hand_strength, h]
  · intro hlen t ht
    have hperm : (hand.insertionSort (· ≥ ·)).Perm hand :=
      List.perm_insertionSort _ hand
    have hsorted : List.Sorted (· ≥ ·) (hand.insertionSort (· ≥ ·)) :=
      List.sorted_insertionSort _ hand
    have hlen' : (hand.insertionSort (· ≥ ·)).length = hand.length :=
      hperm.length_eq
    obtain ⟨v0, v1, rest, hl⟩ :
        ∃ v0 v1 rest, hand.insertionSort (· ≥ ·) = v0 :: v1 :: rest := by
      cases hs : hand.insertionSort (· ≥ ·) with
      | nil => rw [hs] at hlen'; simp at hlen'; omega
      | cons a l =>
        cases l with
        | nil => rw [hs] at hlen'; simp at hlen'; omega
        | cons b l' => exact ⟨a, b, l', rfl⟩
    have hv0 : v0 = t := by
      have hv0mem : v0 ∈ hand := hperm.mem_iff.mp (by simp [hl])
      have h1 : v0 ≤ t := le_maxHand ht v0 hv0mem
      have htmem : t ∈ hand.insertionSort (· ≥ ·) :=
        hperm.mem_iff.mpr (maxHand_mem ht)
      rw [hl] at htmem hsorted
      have h2 : t ≤ v0 := by
        rcases List.mem_cons.mp htmem with h | h
        · omega
        · exact (List.sorted_cons.mp hsorted).1 t h
      omega
    have hcount : (hand.insertionSort (· ≥ ·)).count t = hand.count t :=
      hperm.count_eq t
    constructor
    · intro hpair
      have hv1 : v1 = t := by
        rw [hl, hv0] at hcount
        have h1 : List.count t (t :: v1 :: rest) =
            List.count t (v1 :: rest) + 1 := by simp
        have hge : 0 < List.count t (v1 :: rest) := by omega
        have hmem : t ∈ v1 :: rest := List.count_pos_iff.mp hge
        rw [hl] at hsorted
        have hsorted' := (List.sorted_cons.mp hsorted).2
        have h2 : t ≤ v1 := by
          rcases List.mem_cons.mp hmem with h | h
          · omega
          · exact (List.sorted_cons.mp hsorted').1 t h
        have hv1mem : v1 ∈ hand := hperm.mem_iff.mp (by simp [hl])
        have h3 : v1 ≤ t := le_maxHand ht v1 hv1mem
        omega
      rw [evaluate_hand_strength, if_neg (by omega), hl, hv0, hv1]
      simp
    · intro hnopair
      have hv1 : v1 ≠ t := by
        intro hc
        rw [hl, hv0, hc] at hcount
        simp [List.count_cons] at hcount
        omega
      rw [evaluate_hand_strength, if_neg (by omega), hl, hv0]
      simp [Ne.symm hv1]

/-- Witness for C8: the general cases instantiated on the concrete pair
`[3, 5, 5]` (top value 5 occurring twice) and the no-pair hand `[2, 9]`. -/
theorem hand_strength_spec_witness :
    evaluate_hand_strength [3, 5, 5] = 7/10 + ((5 : ℚ) / 13) * (3/10) ∧
    evaluate_hand_strength [2, 9] = 3/10 + ((9 : ℚ) / 13) * (2/5) ∧
    evaluate_hand_strength [4] = 1/2 := by
  refine ⟨?_, ?_, ?_⟩
  · exact ((hand_strength_spec [3, 5, 5]).2.1 (by decide) 5 (by decide)).1
      (by decide)
  · exact ((hand_strength_spec [2, 9]).2.1 (by decide) 9 (by decide)).2
      (by decide)
  · exact (hand_strength_spec [4]).1 (by decide)

/-- Definition following the words of claim C4 (spec §4.3's
round-completion test): complete when either no action occurred during
the sweep or every player is folded, all-in, or matched to the table
bet.  Compared against the code's `betting_complete_check`. -/
def claimedCompleteC4 (players : List Player) (cb : Int) (had : Bool) : Prop :=
  had = false ∨
    ∀ p ∈ players, p.current_bet = cb ∨ p.has_folded = true ∨ p.is_all_in = true

/-- All-in player used by the C4 counterexample: contributed 30 and holds
no chips. -/
def cexAllInPlayer : Player :=
  { chips := 0, hand := [], current_bet := 30, has_folded := false,
    is_all_in := true }

/-- Still-active player used by the C4 counterexample: contributed only 5
against a table bet of 30 and is neither folded nor all-in. -/
def cexBehindPlayer : Player :=
  { chips := 95, hand := [], current_bet := 5, has_folded := false,
    is_all_in := false }

/-- Counterexample to CLAIM C4 as stated: action occurred during the sweep
(`had = true`) and `cexBehindPlayer` is neither folded nor all-in with
`current_bet = 5 ≠ 30`, so neither of the claim's two completion cases
holds — yet the code declares the round complete, because only one player
can still bet: the `len(active_betting_players) <= 1` clause of
src/poker_game.py lines 149-151, which the claim omits. -/
theorem betting_complete_counterexample :
    betting_complete_check [cexAllInPlayer, cexBehindPlayer] 30 true = true ∧
    ¬ claimedCompleteC4 [cexAllInPlayer, cexBehindPlayer] 30 true := by
  constructor
  · decide
  · intro h
    rcases h with h | h
    · simp at h
    · have h2 := h cexBehindPlayer (by simp)
      simp [cexBehindPlayer] at h2

/-- CLAIM C4 amended: after a full sweep, `betting_round` declares the
round complete exactly when (i) no player acted during the sweep, or
(ii) every player is folded, all-in, or matched to the table bet, or
(iii) at most one player is neither folded nor all-in; in every other
case it performs another sweep. -/
theorem betting_complete_iff (players : List Player) (cb : Int) (had : Bool) :
    betting_complete_check players cb had = true ↔
      (claimedCompleteC4 players cb had ∨ countActiveBetting players ≤ 1) := by
  rw [betting_complete_check]
  split_ifs with h1 h2
  · simp [h1]
  · cases had with
    | true => simp at h2
    | false => simp [claimedCompleteC4]
  · cases had with
    | false => simp at h2
    | true =>
      simp only [claimedCompleteC4, List.all_eq_true, Bool.or_eq_true,
        beq_iff_eq]
      constructor
      · intro h
        left; right
        intro p hp
        have := h p hp
        tauto
      · intro h
        rcases h with (h | h) | h
        · exact absurd h (by simp)
        · intro p hp
          have := h p hp
          tauto
        · exact absurd h h1

/-- Definition following the words of claim C7: the claimed raise amount
`clamp(round(minimumBet * (1 + aggression*handStrength*3)), minimumBet,
maxRaise)`, with `round` to the nearest integer. -/
def claimedRaiseAmountC7 (aggression hs : ℚ) (minb maxr : Int) : Int :=
  max minb (min (round ((minb : ℚ) * (1 + aggression * hs * 3))) maxr)

/-- The AI player of the C7 counterexample: a pair of threes (card values
`[1, 1]`), 1000 chips, nothing committed yet. -/
def cexRaiser : Player :=
  { chips := 1000, hand := [1, 1], current_bet := 0, has_folded := false,
    is_all_in := false }

/-- Counterexample to CLAIM C7 as stated: an `AIPlayer` with aggression 1
holding a pair of threes (values `[1, 1]`, strength `47/65`) above the
raise threshold `3/5`, with 1000 chips, zero call amount and minimum bet
10.  The raw raise product is `10 * (1 + 3*47/65) = 412/13 ≈ 31.69`; the
code applies Python `int()` (truncation) and raises by 31, while the
claim's `round` gives 32. -/
theorem ai_raise_round_counterexample :
    (3/5 + (2/5 - (1 : ℚ) * (2/5)) <
      evaluate_hand_strength ([1, 1] : List Nat)) ∧
    callAmount 0 cexRaiser.current_bet + 10 < cexRaiser.chips ∧
    ai_make_decision 1 cexRaiser 0 10 = .raise 31 ∧
    claimedRaiseAmountC7 1 (evaluate_hand_strength [1, 1]) 10
      (cexRaiser.chips - callAmount 0 cexRaiser.current_bet) = 32 ∧
    (31 : Int) ≠ 0 + 32 := by
  have hev : evaluate_hand_strength [1, 1] = 47/65 := by
    norm_num [evaluate_hand_strength, List.insertionSort, List.orderedInsert]
  refine ⟨by rw [hev]; norm_num, by decide, ?_, ?_, by decide⟩
  · norm_num [ai_make_decision, callAmount, cexRaiser, hev, pytrunc]
  · have harg : ((10 : Int) : ℚ) *
        (1 + 1 * evaluate_hand_strength [1, 1] * 3) = 412/13 := by
      rw [hev]; norm_num
    have hfl : (⌊(412 : ℚ)/13 + 1/2⌋ : Int) = 32 := by
      rw [Int.floor_eq_iff]
      norm_num
    rw [claimedRaiseAmountC7, harg, round_eq, hfl]
    norm_num [cexRaiser, callAmount]


/-- CLAIM C7 amended: whenever the hand strength exceeds the raise
threshold and the chips exceed `callAmount + minimumBet` (aggression in
`[0, 1]`, non-negative minimum bet), `make_decision` returns a Raise of
`callAmount + raiseAmount` where `raiseAmount =
clamp(int(minimumBet * (1 + aggression*handStrength*3)), minimumBet,
chips - callAmount)` — with Python `int(...)` truncation toward zero in
place of the claim's `round(...)`. -/
theorem ai_raise_amount (a : ℚ) (p : Player) (tb minb : Int)
    (ha0 : 0 ≤ a) (ha1 : a ≤ 1) (hmb : 0 ≤ minb)
    (hstr : 3/5 + (2/5 - a * (2/5)) < evaluate_hand_strength p.hand)
    (hch : callAmount tb p.current_bet + minb < p.chips) :
    ai_make_decision a p tb minb =
      .raise (callAmount tb p.current_bet +
        max minb (min (pytrunc ((minb : ℚ) *
            (1 + a * evaluate_hand_strength p.hand * 3)))
          (p.chips - callAmount tb p.current_bet))) := by
  have hc0 : 0 ≤ callAmount tb p.current_bet := by
    rw [callAmount]
    split_ifs with h <;> omega
  have hchips : 0 < p.chips := by omega
  have hmaxc : max p.chips 1 = p.chips := max_eq_left (by omega)
  have hlt : ((callAmount tb p.current_bet : Int) : ℚ) < ((p.chips : Int) : ℚ) := by
    exact_mod_cast (by omega : callAmount tb p.current_bet < p.chips)
  have hchq : (0 : ℚ) < ((p.chips : Int) : ℚ) := by exact_mod_cast hchips
  have hdiv : ((callAmount tb p.current_bet : Int) : ℚ) /
      ((p.chips : Int) : ℚ) < 1 := (div_lt_one hchq).mpr hlt
  have haggr : a * (2/5) ≤ 2/5 := by nlinarith
  simp only [ai_make_decision]
  split_ifs with h1 h2
  · exfalso
    obtain ⟨h1a, -⟩ := h1
    rw [hmaxc] at h1a
    have hmul : ((callAmount tb p.current_bet : Int) : ℚ) /
        ((p.chips : Int) : ℚ) * (3/10) < 3/10 := by nlinarith
    linarith
  · simp only [Decision.raise.injEq]
    omega
  · exact absurd ⟨hstr, hch⟩ h2

/-- Witness for the amended C7 at the counterexample player: aggression 1,
a pair of threes, call amount 0, minimum bet 10 — the decision is a raise
by `clamp(int(412/13), 10, 1000) = 31`. -/
theorem ai_raise_amount_witness :
    (0 : ℚ) ≤ 1 ∧ (1 : ℚ) ≤ 1 ∧ (0 : Int) ≤ 10 ∧
    (3/5 + (2/5 - (1 : ℚ) * (2/5)) <
      evaluate_hand_strength cexRaiser.hand) ∧
    callAmount 0 cexRaiser.current_bet + 10 < cexRaiser.chips ∧
    ai_make_decision 1 cexRaiser 0 10 =
      .raise (callAmount 0 cexRaiser.current_bet +
        max 10 (min (pytrunc (((10 : Int) : ℚ) *
            (1 + 1 * evaluate_hand_strength cexRaiser.hand * 3)))
          (cexRaiser.chips - callAmount 0 cexRaiser.current_bet))) := by
  have hstr : 3/5 + (2/5 - (1 : ℚ) * (2/5)) <
      evaluate_hand_strength cexRaiser.hand := by
    show 3/5 + (2/5 - (1 : ℚ) * (2/5)) < evaluate_hand_strength [1, 1]
    norm_num [evaluate_hand_strength, List.insertionSort, List.orderedInsert]
  exact ⟨by norm_num, by norm_num, by norm_num, hstr, by decide,
    ai_raise_amount 1 cexRaiser 0 10 (by norm_num) (by norm_num)
      (by norm_num) hstr (by decide)⟩

/-- The AI player of the C9 scenario: 50 chips, a pair of Aces, nothing
committed, facing a table bet of 100. -/
def cexShortStack : Player :=
  { chips := 50, hand := [12, 12], current_bet := 0, has_folded := false,
    is_all_in := false }

/-- Counterexample to CLAIM C9 as stated: the short-stacked AI player with
50 chips facing a call amount of 100 returns `('call', 100)` — the
returned decision amount is 100, which exceeds the 50 available chips;
`make_decision` itself performs no clamping on calls. -/
theorem ai_overcall_counterexample :
    cexShortStack.chips = 50 ∧
    callAmount 100 cexShortStack.current_bet = 100 ∧
    ai_make_decision (1/2) cexShortStack 100 10 = .call 100 ∧
    ¬ ((100 : Int) ≤ 50) := by
  refine ⟨by decide, by decide, ?_, by decide⟩
  have hev : evaluate_hand_strength [12, 12] = 127/130 := by
    norm_num [evaluate_hand_strength, List.insertionSort, List.orderedInsert]
  norm_num [ai_make_decision, callAmount, cexShortStack, hev]

/-- CLAIM C9 amended: an `AIPlayer` with `chips = 50` facing a call amount
of 100 (and a non-negative minimum bet) returns either Fold or
`Call(100)`; the returned amount is not clamped by `make_decision`, but
committing it through `place_bet` commits exactly the 50 available chips,
zeroes the stack and sets the all-in flag — so the chips actually taken
never exceed the available chips. -/
theorem ai_decision_short_stack (a : ℚ) (p : Player) (tb minb : Int)
    (hch : p.chips = 50) (hca : callAmount tb p.current_bet = 100)
    (hmb : 0 ≤ minb) :
    ai_make_decision a p tb minb = .fold ∨
    (ai_make_decision a p tb minb = .call 100 ∧
      (place_bet p 100).1 = 50 ∧ (place_bet p 100).2.chips = 0 ∧
      (place_bet p 100).2.is_all_in = true) := by
  simp only [ai_make_decision, hca, hch]
  split_ifs with h1 h2
  · exact Or.inl rfl
  · exact absurd h2.2 (by omega)
  · refine Or.inr ⟨rfl, ?_, ?_, ?_⟩ <;> simp [place_bet, hch]

/-- Witness for the amended C9 at the concrete short-stacked player. -/
theorem ai_decision_short_stack_witness :
    cexShortStack.chips = 50 ∧
    callAmount 100 cexShortStack.current_bet = 100 ∧ (0 : Int) ≤ 10 ∧
    (ai_make_decision (1/2) cexShortStack 100 10 = .fold ∨
      (ai_make_decision (1/2) cexShortStack 100 10 = .call 100 ∧
        (place_bet cexShortStack 100).1 = 50 ∧
        (place_bet cexShortStack 100).2.chips = 0 ∧
        (place_bet cexShortStack 100).2.is_all_in = true)) :=
  ⟨by decide, by decide, by decide,
    ai_decision_short_stack (1/2) cexShortStack 100 10 (by decide)
      (by decide) (by decide)⟩

/-- Sum of `chips + current_bet` over a list of players: the conserved
ledger quantity. -/
def sumChipsBets (ps : List Player) : Int :=
  (ps.map (fun p => p.chips + p.current_bet)).sum

/-- Sum of the per-round contributions over a list of players. -/
def sumBets (ps : List Player) : Int :=
  (ps.map (fun p => p.current_bet)).sum

/-- Replacing the element at a valid index changes a mapped sum by the
difference between the images of the new and old elements. -/
theorem sum_map_set {α M : Type} [AddCommMonoid M] (f : α → M) :
    ∀ (l : List α) (i : Nat) (x y : α), l.get? i = some y →
      ((l.set i x).map f).sum + f y = (l.map f).sum + f x := by
  intro l
  induction l with
  | nil => intro i x y h; simp at h
  | cons a as ih =>
    intro i x y h
    cases i with
    | zero =>
      simp at h
      subst h
      simp [List.set]
      abel
    | succ n =>
      simp only [List.get?] at h
      have := ih n x y h
      simp only [List.set, List.map, List.sum_cons]
      rw [add_assoc, this, add_assoc]

/-- Basic facts about `place_bet`: it conserves `chips + current_bet`,
returns exactly the increase of `current_bet`, keeps non-negative chips
non-negative, and touches neither the hand nor the fold flag. -/
theorem place_bet_facts (p : Player) (a : Int) :
    (place_bet p a).2.chips + (place_bet p a).2.current_bet
        = p.chips + p.current_bet ∧
    (place_bet p a).1 = (place_bet p a).2.current_bet - p.current_bet ∧
    (0 ≤ p.chips → 0 ≤ (place_bet p a).2.chips) ∧
    (place_bet p a).2.hand = p.hand ∧
    (place_bet p a).2.has_folded = p.has_folded := by
  rw [place_bet]
  split_ifs with h <;> simp <;> omega

/-- The conservation relation between two round states: the total
`chips + current_bet` ledger is unchanged, and the pot has grown by
exactly the growth of the committed bets. -/
def Conserv (st st' : RoundSt) : Prop :=
  sumChipsBets st'.players = sumChipsBets st.players ∧
  st'.pot - sumBets st'.players = st.pot - sumBets st.players

theorem Conserv.refl (st : RoundSt) : Conserv st st := ⟨rfl, rfl⟩

theorem Conserv.trans {s1 s2 s3 : RoundSt} (h1 : Conserv s1 s2)
    (h2 : Conserv s2 s3) : Conserv s1 s3 :=
  ⟨h2.1.trans h1.1, h2.2.trans h1.2⟩

/-- Processing any single decision conserves the ledger. -/
theorem applyDecision_conserv (st : RoundSt) (i : Nat) (p : Player)
    (d : Decision) (h : st.players.get? i = some p) :
    Conserv st (applyDecision st i p d) := by
  cases d with
  | fold =>
    have h1 := sum_map_set (fun p => p.chips + p.current_bet)
      st.players i (fold p) p h
    have h2 := sum_map_set (fun p => p.current_bet) st.players i (fold p) p h
    simp [fold] at h1 h2
    constructor <;> simp [applyDecision, fold, sumChipsBets, sumBets] <;> omega
  | call a =>
    by_cases ha : 0 < a
    · have h1 := sum_map_set (fun p => p.chips + p.current_bet)
        st.players i (place_bet p a).2 p h
      have h2 := sum_map_set (fun p => p.current_bet)
        st.players i (place_bet p a).2 p h
      have hf := place_bet_facts p a
      constructor <;>
        simp [applyDecision, ha, sumChipsBets, sumBets] <;>
        simp [sumChipsBets, sumBets] at h1 h2 <;> omega
    · constructor <;> simp [applyDecision, ha]
  | raise a =>
    have h1 := sum_map_set (fun p => p.chips + p.current_bet)
      st.players i (place_bet p a).2 p h
    have h2 := sum_map_set (fun p => p.current_bet)
      st.players i (place_bet p a).2 p h
    have hf := place_bet_facts p a
    constructor <;>
      simp [applyDecision, sumChipsBets, sumBets] <;>
      simp [sumChipsBets, sumBets] at h1 h2 <;> omega

/-- The state carried by a sweep result. -/
def stOfSweep : SweepResult → RoundSt
  | .exited st => st
  | .done st _ => st

/-- A full or early-exited sweep conserves the ledger. -/
theorem sweepGo_conserv (pol : Policy) (minb : Int) :
    ∀ (is : List Nat) (st : RoundSt) (had : Bool),
      Conserv st (stOfSweep (sweepGo pol minb is st had)) := by
  intro is
  induction is with
  | nil => intro st had; exact Conserv.refl st
  | cons i rest ih =>
    intro st had
    rw [sweepGo]
    cases h : st.players.get? i with
    | none => exact ih st had
    | some p =>
      by_cases h1 : p.has_folded || p.is_all_in
      · simp only [h1, if_true]
        exact ih st had
      · simp only [h1, if_false]
        by_cases h2 : needsToAct st i p
        · simp only [h2, if_true]
          by_cases h3 : lastRaiserSkip st i
          · simp only [h3, if_true]
            exact ih st had
          · simp only [h3, if_false]
            have hc := applyDecision_conserv st i p
              (pol i p st.current_bet minb) h
            by_cases h4 : countNonFolded
                (applyDecision st i p (pol i p st.current_bet minb)).players ≤ 1
            · simp only [h4, if_true]
              exact hc
            · simp only [h4, if_false]
              exact hc.trans (ih _ true)
        · simp only [h2, if_false]
          by_cases h4 : countNonFolded st.players ≤ 1
          · simp only [h4, if_true]
            exact Conserv.refl st
          · simp only [h4, if_false]
            exact ih st had

/-- The sweep loop conserves the ledger on every successful run. -/
theorem betting_loop_conserv (pol : Policy) (minb : Int) :
    ∀ (fuel : Nat) (st st' : RoundSt),
      betting_loop pol minb fuel st = some st' → Conserv st st' := by
  intro fuel
  induction fuel with
  | zero => intro st st' h; simp [betting_loop] at h
  | succ n ih =>
    intro st st' h
    rw [betting_loop] at h
    cases hs : sweepGo pol minb (List.range st.players.length) st false with
    | exited st'' =>
      rw [hs] at h
      have hc := sweepGo_conserv pol minb (List.range st.players.length) st false
      rw [hs] at hc
      simp at h
      exact h ▸ hc
    | done st'' had =>
      rw [hs] at h
      have hc := sweepGo_conserv pol minb (List.range st.players.length) st false
      rw [hs] at hc
      by_cases hck : betting_complete_check st''.players st''.current_bet had = true
      · simp [hck] at h
        exact h ▸ hc
      · simp [hck] at h
        exact Conserv.trans hc (ih st'' st' h)

/-- CLAIM C2: chips are conserved.  `place_bet` leaves `chips +
current_bet` unchanged and keeps chips non-negative, and any completed
`betting_round` leaves the total `chips + current_bet` over all players
unchanged while the pot grows by exactly the total newly committed bets
(no chips are created or destroyed). -/
theorem chips_conservation :
    (∀ (p : Player) (a : Int), 0 ≤ p.chips → 0 ≤ a →
      ((place_bet p a).2.chips + (place_bet p a).2.current_bet
          = p.chips + p.current_bet ∧
        0 ≤ (place_bet p a).2.chips)) ∧
    (∀ (pol : Policy) (minb : Int) (fuel : Nat) (ps : List Player)
        (pot cb : Int) (st' : RoundSt),
      betting_round pol minb fuel ps pot cb = some st' →
        (sumChipsBets st'.players = sumChipsBets ps ∧
          st'.pot - pot = sumBets st'.players - sumBets ps)) := by
  constructor
  · intro p a hc _ha
    have hf := place_bet_facts p a
    exact ⟨hf.1, hf.2.2.1 hc⟩
  · intro pol minb fuel ps pot cb st' h
    rw [betting_round] at h
    by_cases he : countActiveBetting ps ≤ 1
    · simp [he] at h
      rw [← h]
      exact ⟨rfl, by simp⟩
    · simp [he] at h
      have hc := betting_loop_conserv pol minb fuel _ st' h
      obtain ⟨h1, h2⟩ := hc
      simp at h1 h2
      exact ⟨h1, by omega⟩

/-- A policy that always calls exactly the shortfall against the table
bet (what both implemented policies do when they call). -/
def callDeficitPol : Policy := fun _ p tb _ => .call (callAmount tb p.current_bet)

/-- Witness player for C2's `place_bet` part: 5 chips, 2 already bet. -/
def witBettor : Player :=
  { chips := 5, hand := [], current_bet := 2, has_folded := false,
    is_all_in := false }

/-- Witness table for C2's betting-round part: one player has bet 5, the
other is behind and will call the table bet of 5. -/
def witTable : List Player :=
  [{ chips := 1000, hand := [], current_bet := 0, has_folded := false,
     is_all_in := false },
   { chips := 995, hand := [], current_bet := 5, has_folded := false,
     is_all_in := false }]

/-- Witness for C2: a concrete `place_bet` and a concrete completed
betting round (one player behind by 5 calls it) conserve the ledger. -/
theorem chips_conservation_witness :
    (0 ≤ witBettor.chips) ∧ (0 ≤ (3 : Int)) ∧
    ((place_bet witBettor 3).2.chips + (place_bet witBettor 3).2.current_bet
        = witBettor.chips + witBettor.current_bet ∧
      0 ≤ (place_bet witBettor 3).2.chips) ∧
    (∃ st', betting_round callDeficitPol 10 5 witTable 0 5 = some st' ∧
      sumChipsBets st'.players = sumChipsBets witTable ∧
      st'.pot - 0 = sumBets st'.players - sumBets witTable) := by
  refine ⟨by decide, by decide, ?_, ?_⟩
  · exact chips_conservation.1 witBettor 3 (by decide) (by decide)
  · obtain ⟨st', hst⟩ : ∃ st',
        betting_round callDeficitPol 10 5 witTable 0 5 = some st' := ⟨_, rfl⟩
    refine ⟨st', hst, ?_⟩
    have h := chips_conservation.2 callDeficitPol 10 5 witTable 0 5 st' hst
    exact ⟨h.1, by have := h.2; omega⟩
/-- Result of filtering for non-folded players is empty exactly when all
listed players are folded. -/
theorem countNonFolded_cons (a : Player) (as : List Player) :
    countNonFolded (a :: as) =
      (if a.has_folded then 0 else 1) + countNonFolded as := by
  rw [countNonFolded, countNonFolded, List.filter_cons]
  cases h : a.has_folded
  · simp [h]
    omega
  · simp [h]

/-- With no non-folded player counted, every listed player is folded. -/
theorem allFolded_of_countNonFolded_zero {ps : List Player}
    (h : countNonFolded ps = 0) :
    ∀ j p, ps.get? j = some p → p.has_folded = true := by
  intro j p hj
  have hmem : p ∈ ps := List.get?_mem hj
  rw [countNonFolded, List.length_eq_zero] at h
  have := List.filter_eq_nil_iff.mp h p hmem
  simp at this
  exact this

/-- With at least one non-folded player counted, one exists at some index. -/
theorem exists_nonFolded_of_count {ps : List Player}
    (h : 1 ≤ countNonFolded ps) :
    ∃ j p, ps.get? j = some p ∧ p.has_folded = false := by
  rw [countNonFolded] at h
  have hne : ps.filter (fun p => !p.has_folded) ≠ [] := by
    intro hc
    rw [hc] at h
    simp at h
  obtain ⟨q, hq⟩ := List.exists_mem_of_ne_nil _ hne
  have hmem := List.mem_filter.mp hq
  obtain ⟨j, hj⟩ := List.get?_of_mem hmem.1
  refine ⟨j, q, hj, ?_⟩
  have := hmem.2
  simp at this
  exact this

/-- With exactly one non-folded player counted and a non-folded player
found at index `i`, the first non-folded index is `i` itself. -/
theorem firstNonFolded_unique : ∀ (ps : List Player) (i : Nat) (p : Player),
    countNonFolded ps = 1 → ps.get? i = some p → p.has_folded = false →
    firstNonFoldedIdx ps = some i := by
  intro ps
  induction ps with
  | nil => intro i p _ h; simp at h
  | cons a as ih =>
    intro i p hcount hget hnf
    rw [countNonFolded_cons] at hcount
    cases ha : a.has_folded with
    | false =>
      rw [ha] at hcount
      simp at hcount
      cases i with
      | zero => simp [firstNonFoldedIdx, ha]
      | succ n =>
        simp only [List.get?] at hget
        have := allFolded_of_countNonFolded_zero hcount n p hget
        rw [this] at hnf
        simp at hnf
    | true =>
      rw [ha] at hcount
      simp at hcount
      cases i with
      | zero =>
        simp only [List.get?] at hget
        injection hget with hget
        rw [hget] at ha
        rw [ha] at hnf
        simp at hnf
      | succ n =>
        simp only [List.get?] at hget
        rw [firstNonFoldedIdx, if_pos (by simp [ha]), ih n p hcount hget hnf]
        rfl

/-- A pot award to the unique non-folded player: `determine_winner` on a
state with exactly one non-folded player adds the whole pot to that
player's chips (whatever the hands are). -/
theorem dw_single (ps : List Player) (pot : Int) (i : Nat) (p : Player)
    (hcount : countNonFolded ps = 1) (hget : ps.get? i = some p)
    (hnf : p.has_folded = false) :
    determine_winner ps pot = some (ps.set i { p with chips := p.chips + pot }) := by
  have hgetE : ps[i]? = some p := by rw [← List.get?_eq_getElem?]; exact hget
  rw [determine_winner, if_pos hcount, firstNonFolded_unique ps i p hcount hget hnf]
  simp [hgetE]

/-- Invariant of the showdown loop after the indices `< n` have been
scanned: `none` means all scanned players were folded; `some (w, v)`
records a non-folded player `w` holding maximum card value `v`, beating
every scanned non-folded player and strictly beating all earlier ones. -/
def BestInv (ps : List Player) (n : Nat) : Option (Nat × Nat) → Prop
  | none => ∀ j, j < n → ∀ p, ps.get? j = some p → p.has_folded = true
  | some b => b.1 < n ∧
      (∃ q, ps.get? b.1 = some q ∧ q.has_folded = false ∧
        maxHand q.hand = some b.2) ∧
      (∀ j, j < n → ∀ p, ps.get? j = some p → p.has_folded = false →
        ∀ m, maxHand p.hand = some m → m ≤ b.2) ∧
      (∀ j, j < b.1 → ∀ p, ps.get? j = some p → p.has_folded = false →
        ∀ m, maxHand p.hand = some m → m < b.2)

/-- A `BestInv` bound established past the end of the list caps at the
list length. -/
theorem BestInv_cap {ps : List Player} {i : Nat} {best : Option (Nat × Nat)}
    (h : BestInv ps i best) (hl : ps.length ≤ i) : BestInv ps ps.length best := by
  cases best with
  | none =>
    intro j hj q hq
    exact h j (by omega) q hq
  | some b =>
    obtain ⟨h1, h2, h3, h4⟩ := h
    obtain ⟨q, hq, hqa, hqb⟩ := h2
    obtain ⟨hb, -⟩ := List.get?_eq_some.mp hq
    exact ⟨hb, ⟨q, hq, hqa, hqb⟩, fun j hj => h3 j (by omega), h4⟩

/-- Unfolding step: past the end of the list the loop returns the best. -/
theorem showdownGo_step_none {ps : List Player} {k i : Nat}
    {best : Option (Nat × Nat)} (h : ps.get? i = none) :
    showdownGo ps (k+1) i best = some best := by
  have h2 : ps[i]? = none := by
    rw [← List.get?_eq_getElem?]
    exact h
  simp [showdownGo, h2]

/-- Unfolding step: a folded player is skipped. -/
theorem showdownGo_step_folded {ps : List Player} {k i : Nat}
    {best : Option (Nat × Nat)} {p : Player} (h : ps.get? i = some p)
    (hf : p.has_folded = true) :
    showdownGo ps (k+1) i best = showdownGo ps k (i+1) best := by
  have h2 : ps[i]? = some p := by
    rw [← List.get?_eq_getElem?]
    exact h
  simp [showdownGo, h2, hf]

/-- Unfolding step: a non-folded player with an empty hand raises the
`ValueError` of `max()`. -/
theorem showdownGo_step_err {ps : List Player} {k i : Nat}
    {best : Option (Nat × Nat)} {p : Player} (h : ps.get? i = some p)
    (hf : p.has_folded = false) (he : maxHand p.hand = none) :
    showdownGo ps (k+1) i best = none := by
  have h2 : ps[i]? = some p := by
    rw [← List.get?_eq_getElem?]
    exact h
  simp [showdownGo, h2, hf, he]

/-- Unfolding step: a non-folded player with maximum card value `v`
replaces the best exactly when `v` beats the running best value. -/
theorem showdownGo_step_act {ps : List Player} {k i : Nat}
    {best : Option (Nat × Nat)} {p : Player} {v : Nat}
    (h : ps.get? i = some p) (hf : p.has_folded = false)
    (hv : maxHand p.hand = some v) :
    showdownGo ps (k+1) i best = showdownGo ps k (i+1)
      (if bestValue best < (v : Int) then some (i, v) else best) := by
  have h2 : ps[i]? = some p := by
    rw [← List.get?_eq_getElem?]
    exact h
  simp [showdownGo, h2, hf, hv]

/-- The showdown loop, when every remaining non-folded player has a
non-empty hand, terminates without an error and establishes the full
best-player invariant over the whole list. -/
theorem showdownGo_inv (ps : List Player) :
    ∀ (k i : Nat) (best : Option (Nat × Nat)), ps.length ≤ i + k →
      BestInv ps i best →
      (∀ j p, i ≤ j → ps.get? j = some p → p.has_folded = false →
        p.hand ≠ []) →
      ∃ bestF, showdownGo ps k i best = some bestF ∧
        BestInv ps ps.length bestF := by
  intro k
  induction k with
  | zero =>
    intro i best hk hinv _hh
    exact ⟨best, rfl, BestInv_cap hinv (by omega)⟩
  | succ k ih =>
    intro i best hk hinv hhands
    cases hget : ps.get? i with
    | none =>
      have hl : ps.length ≤ i := by
        rw [List.get?_eq_none] at hget
        exact hget
      rw [showdownGo_step_none hget]
      exact ⟨best, by rfl, BestInv_cap hinv hl⟩
    | some p =>
      by_cases hf : p.has_folded = true
      · rw [showdownGo_step_folded hget hf]
        have hB : BestInv ps (i+1) best := by
          cases best with
          | none =>
            intro j hj q hq
            rcases Nat.lt_succ_iff_lt_or_eq.mp hj with h | h
            · exact hinv j h q hq
            · subst h
              rw [hget] at hq
              injection hq with hq
              rw [← hq]
              exact hf
          | some b =>
            obtain ⟨h1, h2, h3, h4⟩ := hinv
            refine ⟨by omega, h2, ?_, h4⟩
            intro j hj q hq hqnf m hm
            rcases Nat.lt_succ_iff_lt_or_eq.mp hj with h | h
            · exact h3 j h q hq hqnf m hm
            · subst h
              rw [hget] at hq
              injection hq with hq
              rw [← hq] at hqnf
              rw [hf] at hqnf
              exact absurd hqnf (by simp)
        exact ih (i+1) best (by omega) hB
          (fun j q hj hq hqnf => hhands j q (by omega) hq hqnf)
      · rw [Bool.not_eq_true] at hf
        have hne : p.hand ≠ [] := hhands i p (by omega) hget hf
        obtain ⟨v, hv⟩ := maxHand_isSome hne
        rw [showdownGo_step_act hget hf hv]
        have hB : BestInv ps (i+1)
            (if bestValue best < (v : Int) then some (i, v) else best) := by
          by_cases hcmp : bestValue best < (v : Int)
          · rw [if_pos hcmp]
            refine ⟨by omega, ⟨p, hget, hf, hv⟩, ?_, ?_⟩
            · intro j hj q hq hqnf m hm
              rcases Nat.lt_succ_iff_lt_or_eq.mp hj with h | h
              · cases best with
                | none =>
                  have := hinv j h q hq
                  rw [this] at hqnf
                  exact absurd hqnf (by simp)
                | some b =>
                  obtain ⟨h1, h2, h3, h4⟩ := hinv
                  have hb2 : m ≤ b.2 := h3 j h q hq hqnf m hm
                  have hlt : (b.2 : Int) < (v : Int) := by
                    simpa [bestValue] using hcmp
                  have : b.2 < v := by exact_mod_cast hlt
                  omega
              · subst h
                rw [hget] at hq
                injection hq with hq
                rw [← hq] at hm
                rw [hv] at hm
                injection hm with hm
                omega
            · intro j hj q hq hqnf m hm
              cases best with
              | none =>
                have := hinv j hj q hq
                rw [this] at hqnf
                exact absurd hqnf (by simp)
              | some b =>
                obtain ⟨h1, h2, h3, h4⟩ := hinv
                have hb2 : m ≤ b.2 := h3 j hj q hq hqnf m hm
                have hlt : (b.2 : Int) < (v : Int) := by
                  simpa [bestValue] using hcmp
                have : b.2 < v := by exact_mod_cast hlt
                omega
          · rw [if_neg hcmp]
            cases best with
            | none =>
              exfalso
              apply hcmp
              simp [bestValue]
              omega
            | some b =>
              obtain ⟨h1, h2, h3, h4⟩ := hinv
              have hvb : (v : Int) ≤ (b.2 : Int) := by
                simpa [bestValue] using not_lt.mp hcmp
              have hvb2 : v ≤ b.2 := by exact_mod_cast hvb
              refine ⟨by omega, h2, ?_, h4⟩
              intro j hj q hq hqnf m hm
              rcases Nat.lt_succ_iff_lt_or_eq.mp hj with h | h
              · exact h3 j h q hq hqnf m hm
              · subst h
                rw [hget] at hq
                injection hq with hq
                rw [← hq] at hm
                rw [hv] at hm
                injection hm with hm
                omega
        exact ih (i+1) _ (by omega) hB
          (fun j q hj hq hqnf => hhands j q (by omega) hq hqnf)

/-- The showdown loop raises (returns `none`) whenever some remaining
non-folded player has an empty hand. -/
theorem showdownGo_none (ps : List Player) :
    ∀ (k i : Nat) (best : Option (Nat × Nat)), ps.length ≤ i + k →
      (∃ j p, i ≤ j ∧ ps.get? j = some p ∧ p.has_folded = false ∧
        p.hand = []) →
      showdownGo ps k i best = none := by
  intro k
  induction k with
  | zero =>
    intro i best hk hex
    obtain ⟨j, p, hij, hj, _, _⟩ := hex
    obtain ⟨hb, -⟩ := List.get?_eq_some.mp hj
    omega
  | succ k ih =>
    intro i best hk hex
    obtain ⟨j, p, hij, hj, hnf, hhand⟩ := hex
    cases hget : ps.get? i with
    | none =>
      obtain ⟨hb, -⟩ := List.get?_eq_some.mp hj
      rw [List.get?_eq_none] at hget
      omega
    | some q =>
      by_cases hf : q.has_folded = true
      · rw [showdownGo_step_folded hget hf]
        apply ih (i+1) best (by omega)
        refine ⟨j, p, ?_, hj, hnf, hhand⟩
        have hji : j ≠ i := by
          intro he
          subst he
          rw [hget] at hj
          injection hj with hj
          rw [← hj] at hnf
          rw [hf] at hnf
          exact absurd hnf (by simp)
        omega
      · rw [Bool.not_eq_true] at hf
        by_cases hqe : q.hand = []
        · exact showdownGo_step_err hget hf (maxHand_eq_none.mpr hqe)
        · obtain ⟨v, hv⟩ := maxHand_isSome hqe
          rw [showdownGo_step_act hget hf hv]
          apply ih (i+1) _ (by omega)
          refine ⟨j, p, ?_, hj, hnf, hhand⟩
          have hji : j ≠ i := by
            intro he
            subst he
            rw [hget] at hj
            injection hj with hj
            rw [← hj] at hhand
            exact absurd hhand hqe
          omega

/-- The showdown branch of `determine_winner`: with at least two
non-folded players all of whose hands are non-empty, the pot goes in full
to the first-seated player holding the strict maximum card value. -/
theorem dw_showdown (ps : List Player) (pot : Int)
    (hcount : 2 ≤ countNonFolded ps)
    (hhands : ∀ p ∈ ps, p.has_folded = false → p.hand ≠ []) :
    ∃ w q mw, ps.get? w = some q ∧ q.has_folded = false ∧
      maxHand q.hand = some mw ∧
      (∀ j r, ps.get? j = some r → r.has_folded = false →
        ∀ m, maxHand r.hand = some m → m ≤ mw ∧ (j < w → m < mw)) ∧
      determine_winner ps pot =
        some (ps.set w { q with chips := q.chips + pot }) := by
  have hinv0 : BestInv ps 0 none := by
    intro j hj q hq
    omega
  have hhands' : ∀ j p, 0 ≤ j → ps.get? j = some p → p.has_folded = false →
      p.hand ≠ [] := fun j p _ hj hp => hhands p (List.get?_mem hj) hp
  obtain ⟨best', hrun, hinv⟩ :=
    showdownGo_inv ps ps.length 0 none (by omega) hinv0 hhands'
  cases best' with
  | none =>
    exfalso
    obtain ⟨j, q, hj, hq⟩ := @exists_nonFolded_of_count ps (by omega)
    obtain ⟨hb, -⟩ := List.get?_eq_some.mp hj
    have := hinv j hb q hj
    rw [this] at hq
    exact absurd hq (by simp)
  | some b =>
    obtain ⟨h1, h2, h3, h4⟩ := hinv
    obtain ⟨q, hq, hqnf, hqm⟩ := h2
    refine ⟨b.1, q, b.2, hq, hqnf, hqm, ?_, ?_⟩
    · intro j r hjr hrnf m hm
      obtain ⟨hb, -⟩ := List.get?_eq_some.mp hjr
      exact ⟨h3 j hb r hjr hrnf m hm, fun hlt => h4 j hlt r hjr hrnf m hm⟩
    · have hgetE : ps[b.1]? = some q := by
        rw [← List.get?_eq_getElem?]
        exact hq
      rw [determine_winner, if_neg (by omega), hrun]
      simp [hgetE]

/-- CLAIM C6: with exactly one non-folded player, `determine_winner` adds
the whole pot to that player's chips; with two or more non-folded players
(all holding at least one card, cf. C10), the winner is the first player
in seating order whose maximum card value weakly dominates every
non-folded player and strictly dominates every earlier-seated one — ties
in the maximum go to the earlier seat and the pot is never split — and
that winner's chips grow by the whole pot. -/
theorem determine_winner_spec (ps : List Player) (pot : Int) :
    (countNonFolded ps = 1 →
      ∀ i p, ps.get? i = some p → p.has_folded = false →
        determine_winner ps pot =
          some (ps.set i { p with chips := p.chips + pot })) ∧
    (2 ≤ countNonFolded ps →
      (∀ p ∈ ps, p.has_folded = false → p.hand ≠ []) →
      ∃ w q mw, ps.get? w = some q ∧ q.has_folded = false ∧
        maxHand q.hand = some mw ∧
        (∀ j r, ps.get? j = some r → r.has_folded = false →
          ∀ m, maxHand r.hand = some m → m ≤ mw ∧ (j < w → m < mw)) ∧
        determine_winner ps pot =
          some (ps.set w { q with chips := q.chips + pot })) :=
  ⟨fun h i p hget hnf => dw_single ps pot i p h hget hnf,
   fun h hh => dw_showdown ps pot h hh⟩

/-- The showdown table for the C6 witness: two Aces in different "suits"
(both maximum value 12), earlier seat wins. -/
def witShowTable : List Player :=
  [{ chips := 100, hand := [12, 3], current_bet := 0, has_folded := false,
     is_all_in := false },
   { chips := 100, hand := [12, 7], current_bet := 0, has_folded := false,
     is_all_in := false }]

/-- The single-survivor table for the C6 witness: seat 0 folded, seat 1
the sole non-folded player. -/
def witSingleTable : List Player :=
  [{ chips := 100, hand := [5], current_bet := 0, has_folded := true,
     is_all_in := false },
   { chips := 30, hand := [9], current_bet := 0, has_folded := false,
     is_all_in := false }]

/-- Witness for C6: the single-survivor case and the tied-Aces showdown
case at concrete tables. -/
theorem determine_winner_spec_witness :
    (countNonFolded witSingleTable = 1 ∧
      determine_winner witSingleTable 40 =
        some (witSingleTable.set 1
          { chips := 70, hand := [9], current_bet := 0, has_folded := false,
            is_all_in := false })) ∧
    (2 ≤ countNonFolded witShowTable ∧
      ∃ w q mw, witShowTable.get? w = some q ∧ q.has_folded = false ∧
        maxHand q.hand = some mw ∧
        (∀ j r, witShowTable.get? j = some r → r.has_folded = false →
          ∀ m, maxHand r.hand = some m → m ≤ mw ∧ (j < w → m < mw)) ∧
        determine_winner witShowTable 40 =
          some (witShowTable.set w { q with chips := q.chips + 40 })) := by
  constructor
  · refine ⟨by decide, ?_⟩
    have h := (determine_winner_spec witSingleTable 40).1 (by decide) 1
      { chips := 30, hand := [9], current_bet := 0, has_folded := false,
        is_all_in := false } (by decide) (by decide)
    simpa using h
  · exact ⟨by decide, (determine_winner_spec witShowTable 40).2 (by decide)
      (by decide)⟩

/-- CLAIM C10: with two or more non-folded players, `determine_winner`
requires every non-folded hand to be non-empty — under that precondition
the `max()`-of-empty-sequence error is unreachable and a winner is always
selected, and whenever some non-folded player does hold an empty hand the
error fires; the single-survivor branch, by contrast, inspects no cards,
so a sole non-folded player with an empty hand still receives the pot. -/
theorem determine_winner_precondition (ps : List Player) (pot : Int) :
    (2 ≤ countNonFolded ps →
      (∀ p ∈ ps, p.has_folded = false → p.hand ≠ []) →
      ∃ res, determine_winner ps pot = some res) ∧
    (2 ≤ countNonFolded ps →
      (∃ j p, ps.get? j = some p ∧ p.has_folded = false ∧ p.hand = []) →
      determine_winner ps pot = none) ∧
    (countNonFolded ps = 1 →
      ∃ res, determine_winner ps pot = some res) := by
  refine ⟨?_, ?_, ?_⟩
  · intro h hh
    obtain ⟨w, q, mw, _, _, _, _, hdw⟩ := dw_showdown ps pot h hh
    exact ⟨_, hdw⟩
  · intro h hex
    obtain ⟨j, p, hj, hnf, hhand⟩ := hex
    have hnone : showdownGo ps ps.length 0 none = none :=
      showdownGo_none ps ps.length 0 none (by omega) ⟨j, p, by omega, hj, hnf, hhand⟩
    rw [determine_winner, if_neg (by omega), hnone]
  · intro h
    obtain ⟨j, p, hj, hnf⟩ := @exists_nonFolded_of_count ps (by omega)
    exact ⟨_, dw_single ps pot j p h hj hnf⟩

/-- A non-folded player holding no cards, for the C10 witness. -/
def witNoCards : Player :=
  { chips := 100, hand := [], current_bet := 0, has_folded := false,
    is_all_in := false }

/-- A table for the C10 witness error case: two non-folded players, the
second holding no cards. -/
def witEmptyHandTable : List Player :=
  [{ chips := 100, hand := [4], current_bet := 0, has_folded := false,
     is_all_in := false },
   witNoCards]

/-- A table for the C10 witness single-survivor case: the sole non-folded
player holds no cards at all. -/
def witEmptySoleTable : List Player :=
  [{ chips := 100, hand := [8], current_bet := 0, has_folded := true,
     is_all_in := false },
   { chips := 100, hand := [], current_bet := 0, has_folded := false,
     is_all_in := false }]

/-- Witness for C10: the showdown succeeds on the tied-Aces table, errors
on the empty-hand table, and the cardless sole survivor still collects. -/
theorem determine_winner_precondition_witness :
    (2 ≤ countNonFolded witShowTable ∧
      ∃ res, determine_winner witShowTable 40 = some res) ∧
    (2 ≤ countNonFolded witEmptyHandTable ∧
      determine_winner witEmptyHandTable 40 = none) ∧
    (countNonFolded witEmptySoleTable = 1 ∧
      ∃ res, determine_winner witEmptySoleTable 40 = some res) := by
  refine ⟨⟨by decide, ?_⟩, ⟨by decide, ?_⟩, ⟨by decide, ?_⟩⟩
  · exact (determine_winner_precondition witShowTable 40).1 (by decide)
      (by decide)
  · exact (determine_winner_precondition witEmptyHandTable 40).2.1 (by decide)
      ⟨1, witNoCards, by decide, by decide, by decide⟩
  · exact (determine_winner_precondition witEmptySoleTable 40).2.2 (by decide)

/-- CLAIM C5: the fold-out shortcut.  (1) During a sweep, the moment a
processed action leaves at most one non-folded player, the sweep returns
immediately with exactly the post-action state — the remaining players
are never consulted and the pot is exactly the pot at that action.
(2) The sweep loop forwards such an early exit unchanged as the round's
final state, performing no further sweeps and no further pot mutation.
(3) `determine_winner` then pays the entire current pot to the sole
remaining non-folded player. -/
theorem fold_out_shortcut :
    (∀ (pol : Policy) (minb : Int) (i : Nat) (rest : List Nat)
        (st : RoundSt) (had : Bool) (p : Player),
      st.players.get? i = some p → p.has_folded = false →
      p.is_all_in = false → needsToAct st i p = true →
      lastRaiserSkip st i = false →
      countNonFolded
        (applyDecision st i p (pol i p st.current_bet minb)).players ≤ 1 →
      sweepGo pol minb (i :: rest) st had =
        .exited (applyDecision st i p (pol i p st.current_bet minb))) ∧
    (∀ (pol : Policy) (minb : Int) (fuel : Nat) (st st' : RoundSt),
      sweepGo pol minb (List.range st.players.length) st false =
        .exited st' →
      betting_loop pol minb (fuel+1) st = some st') ∧
    (∀ (ps : List Player) (pot : Int) (i : Nat) (p : Player),
      countNonFolded ps = 1 → ps.get? i = some p → p.has_folded = false →
      determine_winner ps pot =
        some (ps.set i { p with chips := p.chips + pot })) := by
  refine ⟨?_, ?_, ?_⟩
  · intro pol minb i rest st had p hget hf ha hn hs hc
    have hgetE : st.players[i]? = some p := by
      rw [← List.get?_eq_getElem?]
      exact hget
    simp [sweepGo, hgetE, hf, ha, hn, hs, hc]
  · intro pol minb fuel st st' hsweep
    simp [betting_loop, hsweep]
  · intro ps pot i p hcount hget hnf
    exact dw_single ps pot i p hcount hget hnf

/-- The folding policy and two-player state for the C5 witness: seat 0
has matched the table bet of 10, seat 1 is behind and folds. -/
def witFoldPol : Policy := fun _ _ _ _ => .fold

/-- Seat 0 of the C5 witness state. -/
def witSeatA : Player :=
  { chips := 990, hand := [5], current_bet := 10, has_folded := false,
    is_all_in := false }

/-- Seat 1 of the C5 witness state. -/
def witSeatB : Player :=
  { chips := 1000, hand := [7], current_bet := 0, has_folded := false,
    is_all_in := false }

/-- The C5 witness round state before seat 1 acts. -/
def witFoldSt : RoundSt :=
  { players := [witSeatA, witSeatB], pot := 10, current_bet := 10,
    last_raiser := none, acted := [] }

/-- The C5 witness round state at the early exit: seat 1 just folded. -/
def witFoldExit : RoundSt :=
  applyDecision witFoldSt 1 witSeatB (witFoldPol 1 witSeatB witFoldSt.current_bet 10)

/-- Witness for C5: seat 1's fold triggers the immediate exit, the loop
returns that state as the round result, and seat 0 collects the pot. -/
theorem fold_out_shortcut_witness :
    sweepGo witFoldPol 10 [1] witFoldSt false = .exited witFoldExit ∧
    betting_loop witFoldPol 10 4 witFoldSt = some witFoldExit ∧
    determine_winner witFoldExit.players witFoldExit.pot =
      some (witFoldExit.players.set 0
        { witSeatA with chips := witSeatA.chips + witFoldExit.pot }) := by
  refine ⟨?_, ?_, ?_⟩
  · exact fold_out_shortcut.1 witFoldPol 10 1 [] witFoldSt false witSeatB
      (by decide) (by decide) (by decide) (by decide) (by decide) (by decide)
  · exact fold_out_shortcut.2.1 witFoldPol 10 3 witFoldSt witFoldExit (by decide)
  · exact fold_out_shortcut.2.2 witFoldExit.players witFoldExit.pot 0 witSeatA
      (by decide) (by decide) (by decide)

/-- Setting a valid index yields the new element there. -/
theorem get?_set_self {α : Type} : ∀ (l : List α) (i : Nat) (x y : α),
    l.get? i = some y → (l.set i x).get? i = some x := by
  intro l
  induction l with
  | nil => intro i x y h; simp at h
  | cons a as ih =>
    intro i x y h
    cases i with
    | zero => simp
    | succ n =>
      simp only [List.get?] at h
      simp only [List.set, List.get?]
      exact ih n x y h

/-- Setting one index leaves the other indices unchanged. -/
theorem get?_set_ne {α : Type} : ∀ (l : List α) (i j : Nat) (x : α),
    i ≠ j → (l.set i x).get? j = l.get? j := by
  intro l
  induction l with
  | nil => intro i j x _; simp
  | cons a as ih =>
    intro i j x hij
    cases i with
    | zero =>
      cases j with
      | zero => exact absurd rfl hij
      | succ m => simp [List.set]
    | succ n =>
      cases j with
      | zero => simp [List.set]
      | succ m =>
        simp only [List.set, List.get?]
        exact ih n m x (by omega)

/-- Weight of a player in the termination measure: `0` once folded or
all-in, otherwise one more than the chip count. -/
def wActive (p : Player) : Nat :=
  if p.has_folded || p.is_all_in then 0 else 1 + p.chips.toNat

/-- Termination measure of a betting round: every action other than a
check strictly shrinks it. -/
def mu (st : RoundSt) : Nat := (st.players.map wActive).sum

/-- The policy class under which the betting round terminates: calls
commit exactly the shortfall against the table bet (as both implemented
policies do) and raise amounts exceed the shortfall without exceeding the
stack (as the AI policy does whenever `minimum_bet ≥ 1`). -/
def GoodPolicy (pol : Policy) : Prop :=
  ∀ (i : Nat) (p : Player) (table minb : Int),
    match pol i p table minb with
    | .fold => True
    | .call a => a = callAmount table p.current_bet
    | .raise a => callAmount table p.current_bet < a ∧ a ≤ p.chips

/-- Invariant maintained by the betting round under a `GoodPolicy`:
chips are non-negative, nobody has bet more than the table bet, and the
recorded last raiser (if any) has matched the table bet exactly. -/
def RoundInv (st : RoundSt) : Prop :=
  (∀ p ∈ st.players, 0 ≤ p.chips ∧ p.current_bet ≤ st.current_bet) ∧
  (∀ i, st.last_raiser = some i → ∃ p, st.players.get? i = some p ∧
    p.current_bet = st.current_bet)

/-- Under a `GoodPolicy`, processing one decision of an eligible player
preserves the invariant and either strictly shrinks the measure or is a
check that leaves players and table bet untouched (and can only happen
when the player has already matched the table bet). -/
theorem applyDecision_progress (pol : Policy) (minb : Int) (st : RoundSt)
    (i : Nat) (p : Player) (hget : st.players.get? i = some p)
    (hf : p.has_folded = false) (ha : p.is_all_in = false)
    (hpol : GoodPolicy pol) (hinv : RoundInv st) :
    RoundInv (applyDecision st i p (pol i p st.current_bet minb)) ∧
    (mu (applyDecision st i p (pol i p st.current_bet minb)) < mu st ∨
      ((applyDecision st i p (pol i p st.current_bet minb)).players
          = st.players ∧
        (applyDecision st i p (pol i p st.current_bet minb)).current_bet
          = st.current_bet ∧
        st.current_bet ≤ p.current_bet)) := by
  have hp := hpol i p st.current_bet minb
  have hmem : p ∈ st.players := List.get?_mem hget
  have hpc : 0 ≤ p.chips := (hinv.1 p hmem).1
  have hpcb : p.current_bet ≤ st.current_bet := (hinv.1 p hmem).2
  have hwp : wActive p = 1 + p.chips.toNat := by
    simp [wActive, hf, ha]
  cases hd : pol i p st.current_bet minb with
  | fold =>
    constructor
    · constructor
      · intro q hq
        simp only [applyDecision] at hq
        rcases List.mem_or_eq_of_mem_set hq with h | h
        · exact hinv.1 q h
        · rw [h]
          exact ⟨hpc, hpcb⟩
      · intro k hk
        simp only [applyDecision] at hk ⊢
        obtain ⟨q, hql, hqb⟩ := hinv.2 k hk
        by_cases hki : k = i
        · subst hki
          rw [hql] at hget
          injection hget with hget
          exact ⟨fold p, get?_set_self _ _ _ _ hql, by rw [← hget]; exact hqb⟩
        · exact ⟨q, by rw [get?_set_ne _ _ _ _ (by omega)]; exact hql, hqb⟩
    · left
      have hsum := sum_map_set wActive st.players i (fold p) p hget
      have hwf : wActive (fold p) = 0 := by simp [wActive, fold]
      simp only [applyDecision, mu]
      simp only [mu] at hsum ⊢
      omega
  | call a =>
    rw [hd] at hp
    replace hp : a = callAmount st.current_bet p.current_bet := hp
    by_cases haz : 0 < a
    · have hdef : st.current_bet > p.current_bet := by
        rw [callAmount] at hp
        by_contra hc
        rw [if_neg hc] at hp
        omega
      have hav : a = st.current_bet - p.current_bet := by
        rw [callAmount, if_pos hdef] at hp
        exact hp
      have hcall : applyDecision st i p (.call a) =
          { st with acted := insertActed i st.acted,
                    players := st.players.set i (place_bet p a).2,
                    pot := st.pot + (place_bet p a).1 } := by
        simp [applyDecision, haz]
      rw [hcall]
      have hpb := place_bet_facts p a
      have hcb2 : (place_bet p a).2.current_bet ≤ st.current_bet := by
        rw [place_bet]
        split_ifs with hh
        · simp
          omega
        · simp
          omega
      constructor
      · constructor
        · intro q hq
          simp only at hq
          rcases List.mem_or_eq_of_mem_set hq with h | h
          · exact hinv.1 q h
          · rw [h]
            exact ⟨hpb.2.2.1 hpc, hcb2⟩
        · intro k hk
          simp only at hk
          obtain ⟨q, hql, hqb⟩ := hinv.2 k hk
          by_cases hki : k = i
          · subst hki
            rw [hql] at hget
            injection hget with hget
            rw [hget] at hqb
            exact absurd hqb (by omega)
          · exact ⟨q, by rw [get?_set_ne _ _ _ _ (by omega)]; exact hql, hqb⟩
      · left
        have hsum := sum_map_set wActive st.players i (place_bet p a).2 p hget
        have hwlt : wActive (place_bet p a).2 < wActive p := by
          rw [place_bet]
          split_ifs with hh
          · simp [wActive, hf, ha]
          · simp [wActive, hf, ha]
            omega
        simp only [mu] at hsum ⊢
        omega
    · have hcall : applyDecision st i p (.call a) =
          { st with acted := insertActed i st.acted } := by
        simp [applyDecision, haz]
      rw [hcall]
      have hble : st.current_bet ≤ p.current_bet := by
        rw [callAmount] at hp
        by_cases hgt : st.current_bet > p.current_bet
        · rw [if_pos hgt] at hp
          omega
        · omega
      refine ⟨⟨hinv.1, ?_⟩, Or.inr ⟨rfl, rfl, hble⟩⟩
      intro k hk
      exact hinv.2 k hk
  | raise a =>
    rw [hd] at hp
    replace hp : callAmount st.current_bet p.current_bet < a ∧ a ≤ p.chips := hp
    obtain ⟨hlo, hhi⟩ := hp
    have ha0 : 0 < a := by
      rw [callAmount] at hlo
      split_ifs at hlo <;> omega
    have hcommit : (place_bet p a).1 = a ∧
        (place_bet p a).2.current_bet = p.current_bet + a := by
      rw [place_bet]
      split_ifs with hh
      · constructor <;> simp <;> omega
      · constructor <;> simp
    have hnewcb : st.current_bet < p.current_bet + a := by
      rw [callAmount] at hlo
      split_ifs at hlo <;> omega
    have hraise : applyDecision st i p (.raise a) =
        { st with players := st.players.set i (place_bet p a).2,
                  pot := st.pot + (place_bet p a).1,
                  current_bet := (place_bet p a).2.current_bet,
                  last_raiser := some i, acted := [i] } := by
      simp [applyDecision]
    rw [hraise]
    have hpb := place_bet_facts p a
    constructor
    · constructor
      · intro q hq
        simp only at hq
        rcases List.mem_or_eq_of_mem_set hq with h | h
        · have := hinv.1 q h
          simp only
          rw [hcommit.2]
          omega
        · rw [h]
          simp only
          exact ⟨hpb.2.2.1 hpc, le_refl _⟩
      · intro k hk
        simp only at hk
        injection hk with hk
        subst hk
        exact ⟨(place_bet p a).2, get?_set_self _ _ _ _ hget, rfl⟩
    · left
      have hsum := sum_map_set wActive st.players i (place_bet p a).2 p hget
      have hwlt : wActive (place_bet p a).2 < wActive p := by
        rw [place_bet]
        split_ifs with hh
        · simp [wActive, hf, ha]
        · simp [wActive, hf, ha]
          omega
      simp only [mu] at hsum ⊢
      omega

/-- Sweep step: an index past the end of the player list is skipped. -/
theorem sweepGo_step_oob {pol : Policy} {minb : Int} {i : Nat}
    {rest : List Nat} {st : RoundSt} {had : Bool}
    (hget : st.players.get? i = none) :
    sweepGo pol minb (i :: rest) st had = sweepGo pol minb rest st had := by
  have h2 : st.players[i]? = none := by
    rw [← List.get?_eq_getElem?]
    exact hget
  simp [sweepGo, h2]

/-- Sweep step: a folded or all-in player is skipped (`continue`). -/
theorem sweepGo_step_inactive {pol : Policy} {minb : Int} {i : Nat}
    {rest : List Nat} {st : RoundSt} {had : Bool} {p : Player}
    (hget : st.players.get? i = some p)
    (h1 : p.has_folded = true ∨ p.is_all_in = true) :
    sweepGo pol minb (i :: rest) st had = sweepGo pol minb rest st had := by
  have h2 : st.players[i]? = some p := by
    rw [← List.get?_eq_getElem?]
    exact hget
  rcases h1 with h1 | h1 <;> simp [sweepGo, h2, h1]

/-- Sweep step: a player with no need to act falls through to the
fold-out check. -/
theorem sweepGo_step_noNeed {pol : Policy} {minb : Int} {i : Nat}
    {rest : List Nat} {st : RoundSt} {had : Bool} {p : Player}
    (hget : st.players.get? i = some p) (hf : p.has_folded = false)
    (ha : p.is_all_in = false) (hn : needsToAct st i p = false) :
    sweepGo pol minb (i :: rest) st had =
      if countNonFolded st.players ≤ 1 then .exited st
      else sweepGo pol minb rest st had := by
  have h2 : st.players[i]? = some p := by
    rw [← List.get?_eq_getElem?]
    exact hget
  simp [sweepGo, h2, hf, ha, hn]

/-- Sweep step: the last raiser is skipped (`continue`) once every other
player has responded. -/
theorem sweepGo_step_skipRaiser {pol : Policy} {minb : Int} {i : Nat}
    {rest : List Nat} {st : RoundSt} {had : Bool} {p : Player}
    (hget : st.players.get? i = some p) (hf : p.has_folded = false)
    (ha : p.is_all_in = false) (hn : needsToAct st i p = true)
    (hs : lastRaiserSkip st i = true) :
    sweepGo pol minb (i :: rest) st had = sweepGo pol minb rest st had := by
  have h2 : st.players[i]? = some p := by
    rw [← List.get?_eq_getElem?]
    exact hget
  simp [sweepGo, h2, hf, ha, hn, hs]

/-- Sweep step: an eligible player acts, then the fold-out check runs. -/
theorem sweepGo_step_act {pol : Policy} {minb : Int} {i : Nat}
    {rest : List Nat} {st : RoundSt} {had : Bool} {p : Player}
    (hget : st.players.get? i = some p) (hf : p.has_folded = false)
    (ha : p.is_all_in = false) (hn : needsToAct st i p = true)
    (hs : lastRaiserSkip st i = false) :
    sweepGo pol minb (i :: rest) st had =
      if countNonFolded
          (applyDecision st i p (pol i p st.current_bet minb)).players ≤ 1
      then .exited (applyDecision st i p (pol i p st.current_bet minb))
      else sweepGo pol minb rest
        (applyDecision st i p (pol i p st.current_bet minb)) true := by
  have h2 : st.players[i]? = some p := by
    rw [← List.get?_eq_getElem?]
    exact hget
  simp [sweepGo, h2, hf, ha, hn, hs]

/-- Under a `GoodPolicy` and the round invariant, a completed sweep
preserves the invariant, never grows the measure, and either strictly
shrinks the measure or leaves players and table bet untouched with every
listed still-active player matched to the table bet. -/
theorem sweepGo_done_progress (pol : Policy) (minb : Int)
    (hpol : GoodPolicy pol) :
    ∀ (is : List Nat) (st : RoundSt) (had : Bool) (st' : RoundSt)
      (had' : Bool), RoundInv st →
      sweepGo pol minb is st had = .done st' had' →
      RoundInv st' ∧ mu st' ≤ mu st ∧
      (mu st' < mu st ∨
        (st'.players = st.players ∧ st'.current_bet = st.current_bet ∧
          ∀ j ∈ is, ∀ p, st.players.get? j = some p →
            p.has_folded = false → p.is_all_in = false →
            p.current_bet = st.current_bet)) := by
  intro is
  induction is with
  | nil =>
    intro st had st' had' hinv hrun
    rw [sweepGo] at hrun
    injection hrun with h1 h2
    subst h1
    exact ⟨hinv, le_refl _, Or.inr ⟨rfl, rfl, by simp⟩⟩
  | cons i rest ih =>
    intro st had st' had' hinv hrun
    cases hget : st.players.get? i with
    | none =>
      rw [sweepGo_step_oob hget] at hrun
      obtain ⟨ha1, ha2, ha3⟩ := ih st had st' had' hinv hrun
      refine ⟨ha1, ha2, ?_⟩
      rcases ha3 with h | ⟨hp, hcb, hall⟩
      · exact Or.inl h
      · refine Or.inr ⟨hp, hcb, ?_⟩
        intro j hj q hq
        rcases List.mem_cons.mp hj with hj | hj
        · subst hj
          rw [hget] at hq
          cases hq
        · exact hall j hj q hq
    | some p =>
      by_cases hact : p.has_folded = true ∨ p.is_all_in = true
      · rw [sweepGo_step_inactive hget hact] at hrun
        obtain ⟨ha1, ha2, ha3⟩ := ih st had st' had' hinv hrun
        refine ⟨ha1, ha2, ?_⟩
        rcases ha3 with h | ⟨hp, hcb, hall⟩
        · exact Or.inl h
        · refine Or.inr ⟨hp, hcb, ?_⟩
          intro j hj q hq hqf hqa
          rcases List.mem_cons.mp hj with hj | hj
          · subst hj
            rw [hget] at hq
            injection hq with hq
            subst hq
            rcases hact with h | h
            · rw [h] at hqf; exact absurd hqf (by simp)
            · rw [h] at hqa; exact absurd hqa (by simp)
          · exact hall j hj q hq hqf hqa
      · push_neg at hact
        obtain ⟨hf, ha⟩ : p.has_folded = false ∧ p.is_all_in = false := by
          constructor
          · cases hh : p.has_folded
            · rfl
            · exact absurd hh hact.1
          · cases hh : p.is_all_in
            · rfl
            · exact absurd hh hact.2
        cases hn : needsToAct st i p with
        | false =>
          rw [sweepGo_step_noNeed hget hf ha hn] at hrun
          by_cases hfo : countNonFolded st.players ≤ 1
          · rw [if_pos hfo] at hrun
            cases hrun
          · rw [if_neg hfo] at hrun
            obtain ⟨ha1, ha2, ha3⟩ := ih st had st' had' hinv hrun
            refine ⟨ha1, ha2, ?_⟩
            rcases ha3 with h | ⟨hp, hcb, hall⟩
            · exact Or.inl h
            · refine Or.inr ⟨hp, hcb, ?_⟩
              intro j hj q hq hqf hqa
              rcases List.mem_cons.mp hj with hj | hj
              · subst hj
                rw [hget] at hq
                injection hq with hq
                subst hq
                have hle : p.current_bet ≤ st.current_bet :=
                  (hinv.1 p (List.get?_mem hget)).2
                have hnb : ¬ (p.current_bet < st.current_bet) := by
                  intro hc
                  rw [needsToAct] at hn
                  simp [hc] at hn
                omega
              · exact hall j hj q hq hqf hqa
        | true =>
          cases hs : lastRaiserSkip st i with
          | true =>
            rw [sweepGo_step_skipRaiser hget hf ha hn hs] at hrun
            obtain ⟨ha1, ha2, ha3⟩ := ih st had st' had' hinv hrun
            refine ⟨ha1, ha2, ?_⟩
            rcases ha3 with h | ⟨hp, hcb, hall⟩
            · exact Or.inl h
            · refine Or.inr ⟨hp, hcb, ?_⟩
              intro j hj q hq hqf hqa
              rcases List.mem_cons.mp hj with hj | hj
              · subst hj
                rw [hget] at hq
                injection hq with hq
                subst hq
                rw [lastRaiserSkip] at hs
                have hlr : st.last_raiser = some j := by
                  have := (Bool.and_eq_true _ _).mp hs
                  have h1 := this.1
                  simpa using h1
                obtain ⟨r, hrl, hrb⟩ := hinv.2 j hlr
                rw [hget] at hrl
                injection hrl with hrl
                rw [hrl]
                exact hrb
              · exact hall j hj q hq hqf hqa
          | false =>
            rw [sweepGo_step_act hget hf ha hn hs] at hrun
            by_cases hfo : countNonFolded
                (applyDecision st i p (pol i p st.current_bet minb)).players ≤ 1
            · rw [if_pos hfo] at hrun
              cases hrun
            · rw [if_neg hfo] at hrun
              obtain ⟨hinv1, hstep⟩ :=
                applyDecision_progress pol minb st i p hget hf ha hpol hinv
              obtain ⟨ha1, ha2, ha3⟩ := ih _ true st' had' hinv1 hrun
              have hmu1 : mu (applyDecision st i p (pol i p st.current_bet minb))
                  ≤ mu st := by
                rcases hstep with h | ⟨hp, _, _⟩
                · omega
                · rw [mu, hp, ← mu]
              refine ⟨ha1, by omega, ?_⟩
              rcases hstep with hlt | ⟨hp, hcb, hble⟩
              · left
                omega
              · rcases ha3 with h | ⟨hp2, hcb2, hall⟩
                · left
                  have hmeq : mu (applyDecision st i p
                      (pol i p st.current_bet minb)) = mu st := by
                    rw [mu, mu, hp]
                  omega
                · refine Or.inr ⟨by rw [hp2, hp], by rw [hcb2, hcb], ?_⟩
                  intro j hj q hq hqf hqa
                  rcases List.mem_cons.mp hj with hj | hj
                  · subst hj
                    rw [hget] at hq
                    injection hq with hq
                    subst hq
                    have hle : p.current_bet ≤ st.current_bet :=
                      (hinv.1 p (List.get?_mem hget)).2
                    omega
                  · have := hall j hj q (by rw [hp]; exact hq) hqf hqa
                    rw [hcb] at this
                    exact this

/-- With fuel exceeding the measure, the sweep loop completes under a
`GoodPolicy` from any invariant state. -/
theorem betting_loop_term (pol : Policy) (minb : Int) (hpol : GoodPolicy pol) :
    ∀ (n : Nat) (st : RoundSt), mu st < n → RoundInv st →
      ∃ r, betting_loop pol minb n st = some r := by
  intro n
  induction n with
  | zero =>
    intro st h _
    omega
  | succ n ih =>
    intro st hmu hinv
    cases hs : sweepGo pol minb (List.range st.players.length) st false with
    | exited st1 =>
      refine ⟨st1, ?_⟩
      rw [betting_loop, hs]
    | done st1 had =>
      obtain ⟨hinv1, hle, hprog⟩ :=
        sweepGo_done_progress pol minb hpol _ st false st1 had hinv hs
      by_cases hck : betting_complete_check st1.players st1.current_bet had
          = true
      · exact ⟨st1, by rw [betting_loop, hs]; simp [hck]⟩
      · rcases hprog with hlt | ⟨hp, hcb, hall⟩
        · obtain ⟨r, hr⟩ := ih st1 (by omega) hinv1
          exact ⟨r, by rw [betting_loop, hs]; simp [hck, hr]⟩
        · exfalso
          apply hck
          rw [betting_complete_check]
          by_cases hab : countActiveBetting st1.players ≤ 1
          · rw [if_pos hab]
          · rw [if_neg hab]
            cases had with
            | false => simp
            | true =>
              rw [if_neg (by simp)]
              rw [List.all_eq_true]
              intro q hq
              rw [hp] at hq
              obtain ⟨j, hj⟩ := List.get?_of_mem hq
              obtain ⟨hjlen, -⟩ := List.get?_eq_some.mp hj
              by_cases hqf : q.has_folded = true
              · simp [hqf]
              · by_cases hqa : q.is_all_in = true
                · simp [hqa]
                · have hfj : q.has_folded = false := by
                    cases hh : q.has_folded
                    · rfl
                    · exact absurd hh hqf
                  have haj : q.is_all_in = false := by
                    cases hh : q.is_all_in
                    · rfl
                    · exact absurd hh hqa
                  have hmatched := hall j (List.mem_range.mpr hjlen) q hj hfj haj
                  simp [hmatched, hcb]

/-- The round state at entry to `betting_round`: the supplied players,
pot and table bet, with no last raiser and an empty acted set. -/
def initialRound (ps : List Player) (pot cb : Int) : RoundSt :=
  { players := ps, pot := pot, current_bet := cb, last_raiser := none,
    acted := [] }

/-- CLAIM C3 amended: `betting_round` terminates (some finite fuel
completes the while loop) for every finite list of players with
non-negative stacks none of whom has bet more than the table bet,
under every decision policy whose calls commit exactly the shortfall
`max(0, tableBet - currentBet)` and whose raise amounts exceed that
shortfall without exceeding the stack — the class containing both
implemented policies whenever `minimum_bet ≥ 1`.  For fully arbitrary
policies the loop can run forever (see the counterexample): a player
behind the table bet whose policy always answers `('call', 0)` is asked
to act in every sweep and never changes the state. -/
theorem betting_round_terminates (pol : Policy) (minb : Int)
    (ps : List Player) (pot cb : Int) (hpol : GoodPolicy pol)
    (hps : ∀ p ∈ ps, 0 ≤ p.chips ∧ p.current_bet ≤ cb) :
    ∃ fuel st', betting_round pol minb fuel ps pot cb = some st' := by
  by_cases he : countActiveBetting ps ≤ 1
  · refine ⟨0, initialRound ps pot cb, ?_⟩
    simp [betting_round, he, initialRound]
  · have hinv : RoundInv (initialRound ps pot cb) := by
      constructor
      · intro p hp
        exact hps p hp
      · intro i hi
        simp [initialRound] at hi
    obtain ⟨r, hr⟩ := betting_loop_term pol minb hpol
      (mu (initialRound ps pot cb) + 1) (initialRound ps pot cb)
      (by omega) hinv
    refine ⟨mu (initialRound ps pot cb) + 1, r, ?_⟩
    simp [betting_round, he]
    simp [initialRound] at hr
    exact hr

/-- Witness for the amended C3: the exact-deficit calling policy is in
the policy class, and the concrete two-player round of the C2 witness
terminates under it. -/
theorem betting_round_terminates_witness :
    GoodPolicy callDeficitPol ∧
    (∀ p ∈ witTable, 0 ≤ p.chips ∧ p.current_bet ≤ 5) ∧
    ∃ fuel st', betting_round callDeficitPol 10 fuel witTable 0 5
      = some st' := by
  have hgood : GoodPolicy callDeficitPol := by
    intro i p table minb
    exact rfl
  exact ⟨hgood, by decide, betting_round_terminates callDeficitPol 10 witTable
    0 5 hgood (by decide)⟩

/-- A policy under which the betting round never terminates: seat 0 opens
with a raise of 10 and thereafter checks; seat 1 always answers
`('call', 0)` — a check — even while behind the table bet. -/
def stallPolicy : Policy := fun i p _tb _mb =>
  if i = 0 then (if p.current_bet = 0 then .raise 10 else .call 0)
  else .call 0

/-- Two fresh 1000-chip players for the C3 counterexample. -/
def stallTable : List Player :=
  [{ chips := 1000, hand := [], current_bet := 0, has_folded := false,
     is_all_in := false },
   { chips := 1000, hand := [], current_bet := 0, has_folded := false,
     is_all_in := false }]

/-- The state the stalled round repeats forever: seat 0 has raised to 10
and is the last raiser, seat 1 is behind with nothing committed, both
have acted. -/
def stallSt : RoundSt :=
  { players := [{ chips := 990, hand := [], current_bet := 10,
                  has_folded := false, is_all_in := false },
                { chips := 1000, hand := [], current_bet := 0,
                  has_folded := false, is_all_in := false }],
    pot := 10, current_bet := 10, last_raiser := some 0, acted := [1, 0] }

/-- One sweep from the stalled state reproduces it exactly: seat 0 (the
last raiser, with seat 1 unmatched) checks, seat 1 checks while behind. -/
theorem stall_sweep : sweepGo stallPolicy 10
    (List.range stallSt.players.length) stallSt false
      = .done stallSt true := by
  decide

/-- Each unit of fuel is consumed without changing the stalled state. -/
theorem stall_step (f : Nat) : betting_loop stallPolicy 10 (f+1) stallSt =
    betting_loop stallPolicy 10 f stallSt := by
  have hck : betting_complete_check stallSt.players stallSt.current_bet true
      = false := by decide
  rw [betting_loop, stall_sweep]
  simp [hck]

/-- The first sweep from the fresh state reaches the stalled state. -/
theorem stall_first (f : Nat) :
    betting_loop stallPolicy 10 (f+1) (initialRound stallTable 0 0) =
      betting_loop stallPolicy 10 f stallSt := by
  have hs : sweepGo stallPolicy 10
      (List.range (initialRound stallTable 0 0).players.length)
      (initialRound stallTable 0 0) false = .done stallSt true := by decide
  have hck : betting_complete_check stallSt.players stallSt.current_bet true
      = false := by decide
  rw [betting_loop, hs]
  simp [hck]

/-- No amount of fuel completes the loop from the stalled state. -/
theorem stall_none : ∀ f, betting_loop stallPolicy 10 f stallSt = none := by
  intro f
  induction f with
  | zero => rfl
  | succ f ih => rw [stall_step, ih]

/-- Counterexample to CLAIM C3 as stated: two players with finite
non-negative 1000-chip stacks and a decision policy (seat 0 raises 10
once then checks; seat 1 always answers `('call', 0)`) under which
`betting_round` runs forever — after the opening raise seat 1 stays
behind the table bet, must act in every sweep, and its check never
changes the state, so no finite fuel completes the while loop. -/
theorem betting_round_stall_counterexample :
    (∀ p ∈ stallTable, 0 ≤ p.chips ∧ p.current_bet ≤ 0) ∧
    ¬ ∃ fuel st', betting_round stallPolicy 10 fuel stallTable 0 0
      = some st' := by
  refine ⟨by decide, ?_⟩
  rintro ⟨fuel, st', h⟩
  have hact : ¬ countActiveBetting stallTable ≤ 1 := by decide
  simp [betting_round, hact] at h
  cases fuel with
  | zero => simp [betting_loop] at h
  | succ f =>
    have h2 : betting_loop stallPolicy 10 (f+1) (initialRound stallTable 0 0)
        = some st' := h
    rw [stall_first, stall_none] at h2
    exact Option.noConfusion h2

end PokerBasic
